import Mathlib

/-!
Verification of the PWD (processing time / weight / deadline) exact
single-machine total weighted tardiness solver from `src/main.py`.

The Python source is embedded shallowly:
* `Task` mirrors the `Task` class (fields `id`, `p`, `w`, `d`, Python ints → `ℤ`);
* `getTaskPenalty`, `getPenalty`, `getTotalTime` mirror the pure helpers;
* `PD_Algorithm` mirrors the subset DP: the table of minimum penalties is a
  function `ℕ → WithTop ℤ` (`⊤` models `math.inf`), the witness table a
  function `ℕ → List ℤ`; the `while j <= i` loop over doubling `j = 1 << k`
  is a fold over `k ∈ [0, Nat.size i)` (because `j ≤ i ↔ k < Nat.size i`),
  guarded by `i &&& (1 <<< k) ≠ 0` exactly as `if i & j:` in the source.
-/

namespace PWD

/-- Mirror of the Python `Task` class: `id`, execution time `p`,
weight `w`, deadline `d` (Python ints, hence `ℤ`). -/
structure Task where
  id : ℤ
  p : ℤ
  w : ℤ
  d : ℤ
deriving DecidableEq, Repr

/-- Default task used to totalise list indexing (the Python code never
indexes out of range, so this value is never observable). -/
def dfltTask : Task := ⟨0, 0, 0, 0⟩

/-- Mirror of `getTaskPenalty(task, t)`:
`task.w * (t - task.d) if t > task.d else 0`. -/
def getTaskPenalty (task : Task) (t : ℤ) : ℤ :=
  if task.d < t then task.w * (t - task.d) else 0

/-- Mirror of `getPenalty(data)`: running total time and penalty,
`t += item.p; penalty += getTaskPenalty(item, t)`, returning `0` for an
empty list. -/
def getPenalty (data : List Task) : ℤ :=
  if data.length < 1 then 0
  else (data.foldl
    (fun (s : ℤ × ℤ) item => (s.1 + item.p, s.2 + getTaskPenalty item (s.1 + item.p)))
    (0, 0)).2

/-- Mirror of `getTotalTime(data, orderID)`: sum of `data[i].p` over the
indices `i < len(data)` with `(1 << i) & orderID` nonzero. -/
def getTotalTime (data : List Task) (orderID : ℕ) : ℤ :=
  (List.range data.length).foldl
    (fun s k => if (1 <<< k) &&& orderID ≠ 0 then s + (data.getD k dfltTask).p else s) 0

/-- Python's `<` on lists of integers: lexicographic, element by element,
a strict prefix is smaller.  Used for `table_order[i] > table_order[i-j]`
(written there with the arguments swapped). -/
def pyListLt : List ℤ → List ℤ → Bool
  | [], [] => false
  | [], _ :: _ => true
  | _ :: _, [] => false
  | a :: as, b :: bs => if a < b then true else if b < a then false else pyListLt as bs

/-- DP state: the penalty table (`math.inf` = `⊤`) and the witness table. -/
abbrev DPState := (ℕ → WithTop ℤ) × (ℕ → List ℤ)

/-- One iteration of the inner `while` loop of `PD_Algorithm` at bit `k`:
the accumulator carries `(table[i], table_order[i], index)`.  Mirrors

```
if i & j:
    prev = table[i-j]
    penalty = getTaskPenalty(data[k], time)
    if not math.isinf(prev):
        penalty += prev
    if table[i] > penalty: ...
    elif (table[i] == penalty) and (table_order[i] > table_order[i-j]): ...
```
with `j = 1 <<< k`. -/
def innerStep (data : List Task) (st : DPState) (i : ℕ) (time : ℤ)
    (acc : WithTop ℤ × List ℤ × ℕ) (k : ℕ) : WithTop ℤ × List ℤ × ℕ :=
  if i &&& (1 <<< k) ≠ 0 then
    let prev := st.1 (i - (1 <<< k))
    let pen : ℤ := match prev with
      | ⊤ => getTaskPenalty (data.getD k dfltTask) time
      | (v : ℤ) => getTaskPenalty (data.getD k dfltTask) time + v
    if (pen : WithTop ℤ) < acc.1 then ((pen : WithTop ℤ), st.2 (i - (1 <<< k)), k)
    else if acc.1 = (pen : WithTop ℤ) ∧ pyListLt (st.2 (i - (1 <<< k))) acc.2.1 then
      (acc.1, st.2 (i - (1 <<< k)), k)
    else acc
  else acc

/-- One iteration of the outer `for i in range(1, 2**N)` loop: run the inner
loop, then write back `table[i]`, and
`table_order[i] = (chosen predecessor order) ++ [data[index].id]`.

The Python `while (j <= i)` with `j` doubling from `1` visits exactly the
bit positions `k` with `2^k ≤ i`; we fold over `k ∈ [0, i]`, a superset of
those positions, which is equivalent because every iteration whose bit `k`
is not set in `i` (in particular every `k` with `2^k > i`) leaves the
accumulator unchanged. -/
def runMask (data : List Task) (st : DPState) (i : ℕ) : DPState :=
  let time := getTotalTime data i
  let r := (List.range (i + 1)).foldl (innerStep data st i time) (st.1 i, st.2 i, 0)
  (fun m => if m = i then r.1 else st.1 m,
   fun m => if m = i then r.2.1 ++ [(data.getD r.2.2 dfltTask).id] else st.2 m)

/-- Initial tables: `table = [0] + [inf] * (2**N - 1)`,
`table_order = [[] for _ in range(2**N)]`. -/
def initState : DPState :=
  (fun m => if m = 0 then ((0 : ℤ) : WithTop ℤ) else ⊤, fun _ => [])

/-- The DP state after processing masks `1, …, M` in increasing order. -/
def PD_state (data : List Task) (M : ℕ) : DPState :=
  (List.range' 1 M).foldl (runMask data) initState

/-- Final tables of `PD_Algorithm` (after the loop over all masks
`1, …, 2^N - 1`). -/
def PD_tables (data : List Task) : DPState :=
  PD_state data (2 ^ data.length - 1)

/-- Mirror of `PD_Algorithm(data)`: the returned order is
`table_order[-1]`, i.e. the witness entry of the full mask `2^N - 1`. -/
def PD_Algorithm (data : List Task) : List ℤ :=
  (PD_tables data).2 (2 ^ data.length - 1)

/-! ### Specification-side vocabulary -/

/-- Positions (in increasing order) of the set bits of the mask `i`
below `N`: the subset of jobs denoted by `i`. -/
def maskBits (N i : ℕ) : List ℕ := (List.range N).filter (fun k => i.testBit k)

/-- The jobs sitting at a list of positions. -/
def posJobs (data : List Task) (σ : List ℕ) : List Task :=
  σ.map (fun k => data.getD k dfltTask)

/-- The id stored at position `k` of the job list. -/
def idOf (data : List Task) (k : ℕ) : ℤ := (data.getD k dfltTask).id

/-- Number of set bits of a mask. -/
def popCount (m : ℕ) : ℕ := ((List.range m).filter (fun k => m.testBit k)).length

/-- Interpret a returned order (a list of job ids) as the corresponding
job sequence, the way the driver indexes `np.array(data)[order]`
(meaningful when ids coincide with positions). -/
def ordToJobs (data : List Task) (ord : List ℤ) : List Task :=
  ord.map (fun i => data.getD i.toNat dfltTask)

/-! ### Bit-level lemmas -/

lemma and_shift_ne_iff (i k : ℕ) : (i &&& (1 <<< k) ≠ 0) ↔ i.testBit k = true := by
  rw [Nat.one_shiftLeft, Nat.and_two_pow]
  cases h : i.testBit k <;> simp [h, (pow_pos (two_pos (α := ℕ)) k).ne']

lemma shift_and_ne_iff (i k : ℕ) : ((1 <<< k) &&& i ≠ 0) ↔ i.testBit k = true := by
  rw [Nat.one_shiftLeft, Nat.two_pow_and]
  cases h : i.testBit k <;> simp [h, (pow_pos (two_pos (α := ℕ)) k).ne']

lemma two_pow_le_of_testBit {i k : ℕ} (h : i.testBit k = true) : 2 ^ k ≤ i := by
  by_contra hlt
  push_neg at hlt
  simp [Nat.testBit_eq_false_of_lt hlt] at h

lemma testBit_sub_two_pow_self {i k : ℕ} (h : i.testBit k = true) :
    (i - 2 ^ k).testBit k = false := by
  have hle : 2 ^ k ≤ i := two_pow_le_of_testBit h
  have hdiv : (i - 2 ^ k) / 2 ^ k = i / 2 ^ k - 1 := by
    have := Nat.sub_mul_div i (2 ^ k) 1 (by simpa using hle)
    simpa using this
  rw [Nat.testBit_to_div_mod] at h ⊢
  rw [hdiv]
  simp only [decide_eq_true_eq] at h
  simp only [decide_eq_false_iff_not]
  omega

lemma testBit_sub_two_pow_ne {i k : ℕ} (h : i.testBit k = true) {j : ℕ} (hj : j ≠ k) :
    (i - 2 ^ k).testBit j = i.testBit j := by
  have hle : 2 ^ k ≤ i := two_pow_le_of_testBit h
  rcases lt_or_gt_of_ne hj with hlt | hgt
  · -- `j < k`: the two numbers agree modulo `2 ^ (j+1)`
    have e2 : (i - 2 ^ k) % 2 ^ (j + 1) = i % 2 ^ (j + 1) := by
      have hk : (2 : ℕ) ^ k = 2 ^ (j + 1) * 2 ^ (k - (j + 1)) := by
        rw [← pow_add]
        congr 1
        omega
      rw [hk] at hle ⊢
      exact Nat.sub_mul_mod hle
    have e1 : ∀ x : ℕ, x / 2 ^ j % 2 = x % 2 ^ (j + 1) / 2 ^ j := by
      intro x
      rw [pow_succ, Nat.mod_mul_right_div_self]
    rw [Nat.testBit_to_div_mod, Nat.testBit_to_div_mod, e1, e1, e2]
  · -- `j > k`: the two numbers have the same quotient by `2 ^ (k+1)`
    have hrk : 2 ^ k ≤ i % 2 ^ (k + 1) := by
      by_contra hc
      push_neg at hc
      have hmod : (i % 2 ^ (k + 1)).testBit k = i.testBit k := by
        rw [Nat.testBit_mod_two_pow]
        simp
      rw [← hmod] at h
      simp [Nat.testBit_eq_false_of_lt hc] at h
    have hrlt : i % 2 ^ (k + 1) < 2 ^ (k + 1) :=
      Nat.mod_lt _ (Nat.pos_pow_of_pos _ two_pos)
    have hqm := Nat.div_add_mod i (2 ^ (k + 1))
    have hpk : (2 : ℕ) ^ (k + 1) = 2 ^ k + 2 ^ k := by ring
    have hsmall : i % 2 ^ (k + 1) - 2 ^ k < 2 ^ (k + 1) := by omega
    have hdiv : (i - 2 ^ k) / 2 ^ (k + 1) = i / 2 ^ (k + 1) := by
      have h1 : i - 2 ^ k =
          i % 2 ^ (k + 1) - 2 ^ k + 2 ^ (k + 1) * (i / 2 ^ (k + 1)) := by omega
      rw [h1, Nat.add_mul_div_left _ _ (pow_pos (two_pos (α := ℕ)) (k + 1)),
        Nat.div_eq_of_lt hsmall, zero_add]
    have hpow : (2 : ℕ) ^ j = 2 ^ (k + 1) * 2 ^ (j - (k + 1)) := by
      rw [← pow_add]
      congr 1
      omega
    rw [Nat.testBit_to_div_mod, Nat.testBit_to_div_mod, hpow,
      ← Nat.div_div_eq_div_mul, ← Nat.div_div_eq_div_mul, hdiv]

/-! ### `maskBits` lemmas -/

lemma mem_maskBits {N i k : ℕ} : k ∈ maskBits N i ↔ k < N ∧ i.testBit k = true := by
  simp [maskBits, List.mem_filter, List.mem_range]

lemma maskBits_nodup (N i : ℕ) : (maskBits N i).Nodup :=
  (List.nodup_range N).filter _

lemma maskBits_zero (N : ℕ) : maskBits N 0 = [] := by
  simp [maskBits, Nat.zero_testBit]

lemma testBit_lt_of_lt_two_pow {i N k : ℕ} (hi : i < 2 ^ N) (h : i.testBit k = true) :
    k < N := by
  by_contra hk
  push_neg at hk
  have : i < 2 ^ k := lt_of_lt_of_le hi (Nat.pow_le_pow_right two_pos hk)
  simp [Nat.testBit_eq_false_of_lt this] at h

lemma maskBits_ne_nil {N i : ℕ} (h1 : 1 ≤ i) (h2 : i < 2 ^ N) : maskBits N i ≠ [] := by
  have hex : ∃ k, i.testBit k = true := by
    by_contra hc
    push_neg at hc
    have hz : i = 0 := Nat.zero_of_testBit_eq_false (fun j => by
      cases hcj : i.testBit j with
      | false => rfl
      | true => exact absurd hcj (hc j))
    omega
  obtain ⟨k, hk⟩ := hex
  intro hnil
  have : k ∈ maskBits N i := mem_maskBits.mpr ⟨testBit_lt_of_lt_two_pow h2 hk, hk⟩
  simp [hnil] at this

lemma maskBits_sub_two_pow {N i k : ℕ} (hk : i.testBit k = true) :
    maskBits N (i - 2 ^ k) = (maskBits N i).erase k := by
  rw [(maskBits_nodup N i).erase_eq_filter k, maskBits, maskBits, List.filter_filter]
  refine List.filter_congr ?_
  intro j _
  by_cases hjk : j = k
  · subst hjk
    simp [testBit_sub_two_pow_self hk]
  · simp [testBit_sub_two_pow_ne hk hjk, hjk, bne]

/-! ### Generic fold lemmas -/

lemma foldl_guard_filter {α : Type*} (p : ℕ → Bool) (f : α → ℕ → α) :
    ∀ (l : List ℕ) (a : α),
      l.foldl (fun acc k => if p k then f acc k else acc) a = (l.filter p).foldl f a := by
  intro l
  induction l with
  | nil => intro a; rfl
  | cons x xs ih =>
    intro a
    by_cases h : p x <;> simp [List.filter_cons, h, ih]

lemma filter_range_testBit_congr {i a b : ℕ}
    (hbound : ∀ k, i.testBit k = true → k < a) (hab : a ≤ b) :
    (List.range b).filter (fun k => i.testBit k) =
      (List.range a).filter (fun k => i.testBit k) := by
  induction b, hab using Nat.le_induction with
  | base => rfl
  | succ b hb ih =>
    rw [List.range_succ, List.filter_append, ih]
    have : i.testBit b = false := by
      cases hcb : i.testBit b with
      | false => rfl
      | true => exact absurd (hbound b hcb) (by omega)
    simp [this]

lemma testBit_lt_self {i k : ℕ} (h : i.testBit k = true) : k < i :=
  lt_of_lt_of_le (Nat.lt_two_pow k) (two_pow_le_of_testBit h)

/-- The inner loop's iteration range, filtered by the bit guard, visits
exactly the job positions of the mask. -/
lemma filter_range_succ_eq_maskBits {N i : ℕ} (hi : i < 2 ^ N) :
    (List.range (i + 1)).filter (fun k => i.testBit k) = maskBits N i := by
  have hb1 : ∀ k, i.testBit k = true → k < i + 1 := fun k hk =>
    Nat.lt_succ_of_lt (testBit_lt_self hk)
  have hb2 : ∀ k, i.testBit k = true → k < N := fun k hk =>
    testBit_lt_of_lt_two_pow hi hk
  have e1 := filter_range_testBit_congr (i := i) (a := i + 1) (b := (i + 1) ⊔ N) hb1 le_sup_left
  have e2 := filter_range_testBit_congr (i := i) (a := N) (b := (i + 1) ⊔ N) hb2 le_sup_right
  rw [maskBits, ← e1, ← e2]

/-! ### Python list comparison -/

lemma pyListLt_irrefl : ∀ l : List ℤ, pyListLt l l = false := by
  intro l
  induction l with
  | nil => rfl
  | cons a as ih => simp [pyListLt, ih, lt_irrefl]

lemma pyListLt_trans : ∀ {a b c : List ℤ},
    pyListLt a b = true → pyListLt b c = true → pyListLt a c = true := by
  intro a
  induction a with
  | nil =>
    intro b c hab hbc
    cases b with
    | nil => exact hbc
    | cons y ys =>
      cases c with
      | nil => simp [pyListLt] at hbc
      | cons z zs => rfl
  | cons x xs ih =>
    intro b c hab hbc
    cases b with
    | nil => simp [pyListLt] at hab
    | cons y ys =>
      cases c with
      | nil => simp [pyListLt] at hbc
      | cons z zs =>
        simp only [pyListLt] at hab hbc ⊢
        split_ifs at hab hbc ⊢ with h1 h2 h3 h4 h5 h6 <;>
          first
          | rfl
          | omega
          | (exact ih hab hbc)

/-! ### Penalty evaluator lemmas -/

/-- Total penalty of a job sequence executed back-to-back starting at
elapsed time `t` (specification-side recursion). -/
def penaltyFrom (t : ℤ) : List Task → ℤ
  | [] => 0
  | x :: xs => getTaskPenalty x (t + x.p) + penaltyFrom (t + x.p) xs

lemma getPenalty_go (l : List Task) : ∀ t pen : ℤ,
    (l.foldl
      (fun (s : ℤ × ℤ) item => (s.1 + item.p, s.2 + getTaskPenalty item (s.1 + item.p)))
      (t, pen)).2 = pen + penaltyFrom t l := by
  induction l with
  | nil => intro t pen; simp [penaltyFrom]
  | cons x xs ih =>
    intro t pen
    rw [List.foldl_cons, ih, penaltyFrom]
    ring

lemma getPenalty_eq_penaltyFrom (l : List Task) : getPenalty l = penaltyFrom 0 l := by
  cases l with
  | nil => rfl
  | cons x xs => simp [getPenalty, getPenalty_go, penaltyFrom]

lemma penaltyFrom_append (l1 l2 : List Task) : ∀ t : ℤ,
    penaltyFrom t (l1 ++ l2) = penaltyFrom t l1 + penaltyFrom (t + (l1.map Task.p).sum) l2 := by
  induction l1 with
  | nil => intro t; simp [penaltyFrom]
  | cons x xs ih =>
    intro t
    rw [List.cons_append, penaltyFrom, penaltyFrom, ih (t + x.p)]
    rw [List.map_cons, List.sum_cons]
    ring_nf

lemma getPenalty_concat (l : List Task) (x : Task) :
    getPenalty (l ++ [x]) = getPenalty l + getTaskPenalty x ((l.map Task.p).sum + x.p) := by
  rw [getPenalty_eq_penaltyFrom, getPenalty_eq_penaltyFrom, penaltyFrom_append]
  simp [penaltyFrom]

lemma penaltyFrom_eq_sum (l : List Task) : ∀ t : ℤ,
    penaltyFrom t l = ∑ j ∈ Finset.range l.length,
      getTaskPenalty (l.getD j dfltTask) (t + ((l.take (j + 1)).map Task.p).sum) := by
  induction l with
  | nil => intro t; simp [penaltyFrom]
  | cons x xs ih =>
    intro t
    rw [penaltyFrom, ih (t + x.p), List.length_cons, Finset.sum_range_succ', add_comm]
    congr 1
    · apply Finset.sum_congr rfl
      intro j _
      rw [List.getD_cons_succ]
      congr 1
      rw [List.take_succ_cons, List.map_cons, List.sum_cons]
      ring
    · simp

/-! ### Subset total time lemmas -/

lemma foldl_add_map (f : ℕ → ℤ) : ∀ (l : List ℕ) (c : ℤ),
    l.foldl (fun s k => s + f k) c = c + (l.map f).sum := by
  intro l
  induction l with
  | nil => intro c; simp
  | cons x xs ih => intro c; rw [List.foldl_cons, ih, List.map_cons, List.sum_cons]; ring

lemma getTotalTime_eq_sum (data : List Task) (i : ℕ) :
    getTotalTime data i =
      ((maskBits data.length i).map (fun k => (data.getD k dfltTask).p)).sum := by
  rw [getTotalTime]
  have hfun : (fun (s : ℤ) k => if (1 <<< k) &&& i ≠ 0 then s + (data.getD k dfltTask).p else s)
      = (fun (s : ℤ) k => if i.testBit k then s + (data.getD k dfltTask).p else s) := by
    funext s k
    by_cases h : i.testBit k = true
    · rw [if_pos ((shift_and_ne_iff i k).mpr h), if_pos h]
    · rw [if_neg (fun hc => h ((shift_and_ne_iff i k).mp hc)), if_neg h]
  rw [hfun, foldl_guard_filter (fun k => i.testBit k)
    (fun s k => s + (data.getD k dfltTask).p), foldl_add_map, zero_add]
  rfl

lemma getTotalTime_sub (data : List Task) {i k : ℕ} (hk : i.testBit k = true)
    (hkN : k < data.length) :
    getTotalTime data i = getTotalTime data (i - 2 ^ k) + (data.getD k dfltTask).p := by
  rw [getTotalTime_eq_sum, getTotalTime_eq_sum, maskBits_sub_two_pow hk]
  have hmem : k ∈ maskBits data.length i := mem_maskBits.mpr ⟨hkN, hk⟩
  have hperm := List.perm_cons_erase hmem
  rw [(hperm.map (fun k => (data.getD k dfltTask).p)).sum_eq, List.map_cons, List.sum_cons]
  ring

lemma posJobs_map_p (data : List Task) (σ : List ℕ) :
    ((posJobs data σ).map Task.p).sum = (σ.map (fun k => (data.getD k dfltTask).p)).sum := by
  rw [posJobs, List.map_map]
  rfl

lemma sum_p_of_perm (data : List Task) {σ : List ℕ} {i : ℕ}
    (h : σ.Perm (maskBits data.length i)) :
    ((posJobs data σ).map Task.p).sum = getTotalTime data i := by
  rw [posJobs_map_p, getTotalTime_eq_sum]
  exact (h.map (fun k => (data.getD k dfltTask).p)).sum_eq

/-! ### Inner loop characterization -/

/-- Finite value of a table entry (`0` for `⊤`; the entries the solver
reads are always finite when the value matters). -/
def tableVal : WithTop ℤ → ℤ
  | ⊤ => 0
  | (v : ℤ) => v

/-- Candidate penalty of choosing bit `k` as the last job of mask `i`:
`getTaskPenalty(data[k], time) + table[i - 2^k]`. -/
def penOf (data : List Task) (st : DPState) (i : ℕ) (time : ℤ) (k : ℕ) : ℤ :=
  getTaskPenalty (data.getD k dfltTask) time + tableVal (st.1 (i - 2 ^ k))

/-- Predecessor order of the candidate at bit `k`: `table_order[i - 2^k]`. -/
def ordsOf (st : DPState) (i : ℕ) (k : ℕ) : List ℤ := st.2 (i - 2 ^ k)

/-- Inner loop body once the bit test `i & j` has passed, abstracted over
the candidate penalties and predecessor orders. -/
def chooseStep (pen : ℕ → ℤ) (ords : ℕ → List ℤ)
    (acc : WithTop ℤ × List ℤ × ℕ) (k : ℕ) : WithTop ℤ × List ℤ × ℕ :=
  if (pen k : WithTop ℤ) < acc.1 then ((pen k : WithTop ℤ), ords k, k)
  else if acc.1 = (pen k : WithTop ℤ) ∧ pyListLt (ords k) acc.2.1 then (acc.1, ords k, k)
  else acc

lemma innerStep_eq (data : List Task) (st : DPState) (i : ℕ) (time : ℤ)
    (acc : WithTop ℤ × List ℤ × ℕ) (k : ℕ) :
    innerStep data st i time acc k =
      if i.testBit k then chooseStep (penOf data st i time) (ordsOf st i) acc k else acc := by
  by_cases h : i.testBit k = true
  · have hg : i &&& 1 <<< k ≠ 0 := (and_shift_ne_iff i k).mpr h
    have hg2 : i &&& 2 ^ k ≠ 0 := by
      rw [← Nat.one_shiftLeft]
      exact hg
    simp only [innerStep, if_pos hg, if_pos h, chooseStep, penOf, ordsOf, Nat.one_shiftLeft]
    cases hprev : st.1 (i - 2 ^ k) with
    | top => simp [hprev, tableVal, hg2]
    | coe v => simp [hprev, tableVal, hg2]
  · have hg : ¬i &&& 1 <<< k ≠ 0 := fun hc => h ((and_shift_ne_iff i k).mp hc)
    simp only [innerStep, if_neg hg, if_neg h]

/-- What the inner loop of mask `i` computes, as a fold of `chooseStep`
over the job positions of the mask. -/
lemma foldl_innerStep_eq (data : List Task) (st : DPState) (i : ℕ) (time : ℤ)
    (a : WithTop ℤ × List ℤ × ℕ) (hi : i < 2 ^ data.length) :
    (List.range (i + 1)).foldl (innerStep data st i time) a =
      (maskBits data.length i).foldl (chooseStep (penOf data st i time) (ordsOf st i)) a := by
  have hfun : innerStep data st i time = fun acc k =>
      if i.testBit k then chooseStep (penOf data st i time) (ordsOf st i) acc k else acc := by
    funext acc k
    exact innerStep_eq data st i time acc k
  rw [hfun, foldl_guard_filter (fun k => i.testBit k)
    (chooseStep (penOf data st i time) (ordsOf st i)), filter_range_succ_eq_maskBits hi]

/-- Invariant of the inner loop accumulator after processing the
candidate bits `ks`: the kept candidate is one of `ks`, carries its
predecessor order and penalty, its penalty is minimal, and no tied
candidate has a lexicographically smaller predecessor order. -/
def Good (pen : ℕ → ℤ) (ords : ℕ → List ℤ) (ks : List ℕ)
    (st : WithTop ℤ × List ℤ × ℕ) : Prop :=
  st.2.2 ∈ ks ∧ st.2.1 = ords st.2.2 ∧ st.1 = (pen st.2.2 : WithTop ℤ) ∧
  (∀ k ∈ ks, pen st.2.2 ≤ pen k) ∧
  (∀ k ∈ ks, pen k = pen st.2.2 → pyListLt (ords k) st.2.1 = false)

lemma good_step (pen : ℕ → ℤ) (ords : ℕ → List ℤ) {ks : List ℕ}
    {st : WithTop ℤ × List ℤ × ℕ} (hG : Good pen ords ks st) (k : ℕ) :
    Good pen ords (ks ++ [k]) (chooseStep pen ords st k) := by
  obtain ⟨hmem, hord, hval, hmin, htie⟩ := hG
  rw [chooseStep]
  by_cases h1 : (pen k : WithTop ℤ) < st.1
  · rw [if_pos h1]
    have hklt : pen k < pen st.2.2 := by
      rw [hval] at h1
      exact_mod_cast h1
    refine ⟨by simp, rfl, rfl, ?_, ?_⟩
    · intro q hq
      dsimp only
      rcases List.mem_append.mp hq with h | h
      · have := hmin q h
        omega
      · rw [List.mem_singleton] at h
        subst h
        exact le_refl _
    · intro q hq heq
      dsimp only at heq ⊢
      rcases List.mem_append.mp hq with h | h
      · exfalso
        have := hmin q h
        omega
      · rw [List.mem_singleton] at h
        subst h
        exact pyListLt_irrefl _
  · rw [if_neg h1]
    have hge : st.1 ≤ (pen k : WithTop ℤ) := le_of_not_lt h1
    by_cases h2 : st.1 = (pen k : WithTop ℤ) ∧ pyListLt (ords k) st.2.1 = true
    · rw [if_pos h2]
      obtain ⟨heq, hlt⟩ := h2
      have heqv : pen st.2.2 = pen k := by
        rw [hval] at heq
        exact_mod_cast heq
      refine ⟨by simp, rfl, by dsimp only; rw [hval, heqv], ?_, ?_⟩
      · intro q hq
        dsimp only
        rcases List.mem_append.mp hq with h | h
        · rw [← heqv]
          exact hmin q h
        · rw [List.mem_singleton] at h
          subst h
          exact le_refl _
      · intro q hq heqq
        dsimp only at heqq ⊢
        rcases List.mem_append.mp hq with h | h
        · have ht := htie q h (by rw [heqq, ← heqv])
          cases hc : pyListLt (ords q) (ords k) with
          | false => rfl
          | true =>
            have := pyListLt_trans hc hlt
            rw [this] at ht
            cases ht
        · rw [List.mem_singleton] at h
          subst h
          exact pyListLt_irrefl _
    · rw [if_neg h2]
      refine ⟨List.mem_append.mpr (Or.inl hmem), hord, hval, ?_, ?_⟩
      · intro q hq
        rcases List.mem_append.mp hq with h | h
        · exact hmin q h
        · rw [List.mem_singleton] at h
          subst h
          rw [hval] at hge
          exact_mod_cast hge
      · intro q hq heqq
        rcases List.mem_append.mp hq with h | h
        · exact htie q h heqq
        · rw [List.mem_singleton] at h
          subst h
          cases hc : pyListLt (ords q) st.2.1 with
          | false => rfl
          | true =>
            exfalso
            exact h2 ⟨by rw [hval, heqq], hc⟩

lemma good_foldl (pen : ℕ → ℤ) (ords : ℕ → List ℤ) :
    ∀ (ks P : List ℕ) (st : WithTop ℤ × List ℤ × ℕ), Good pen ords P st →
      Good pen ords (P ++ ks) (ks.foldl (chooseStep pen ords) st) := by
  intro ks
  induction ks with
  | nil =>
    intro P st h
    simpa using h
  | cons k ks ih =>
    intro P st h
    rw [List.foldl_cons]
    have := ih (P ++ [k]) (chooseStep pen ords st k) (good_step pen ords h k)
    simpa [List.append_assoc] using this

lemma good_start (pen : ℕ → ℤ) (ords : ℕ → List ℤ) (k : ℕ) :
    Good pen ords [k] (chooseStep pen ords (⊤, [], 0) k) := by
  rw [chooseStep]
  rw [if_pos (WithTop.coe_lt_top (pen k))]
  refine ⟨by simp, rfl, rfl, ?_, ?_⟩
  · intro q hq
    rw [List.mem_singleton] at hq
    subst hq
    exact le_refl _
  · intro q hq _
    rw [List.mem_singleton] at hq
    subst hq
    exact pyListLt_irrefl _

/-- Running the whole inner loop over a nonempty candidate list from the
initial accumulator `(inf, [], 0)` yields a kept candidate satisfying the
selection invariant. -/
lemma good_run (pen : ℕ → ℤ) (ords : ℕ → List ℤ) {ks : List ℕ} (h : ks ≠ []) :
    Good pen ords ks (ks.foldl (chooseStep pen ords) (⊤, [], 0)) := by
  cases ks with
  | nil => exact absurd rfl h
  | cons k tl =>
    rw [List.foldl_cons]
    have := good_foldl pen ords tl [k] (chooseStep pen ords (⊤, [], 0) k)
      (good_start pen ords k)
    simpa using this

/-! ### The master invariant of the DP loop -/

/-- Everything the solver guarantees about a processed mask `m`:
the table entry is a finite value `v`; the witness entry is the id-image
of a position sequence `σ` that permutes the subset `maskBits N m` and
achieves penalty `v`; `v` is minimal over all orderings of the subset;
and (for `m ≥ 1`) the entry comes from a winning last bit `k` obeying the
selection rule: minimal candidate penalty, and no tied candidate has a
`pyListLt`-smaller predecessor order. -/
def MaskDone (data : List Task) (st : DPState) (m : ℕ) : Prop :=
  ∃ (v : ℤ) (σ : List ℕ),
    st.1 m = (v : WithTop ℤ) ∧
    σ.Perm (maskBits data.length m) ∧
    st.2 m = σ.map (idOf data) ∧
    getPenalty (posJobs data σ) = v ∧
    (∀ τ : List ℕ, τ.Perm (maskBits data.length m) → v ≤ getPenalty (posJobs data τ)) ∧
    (0 < m → ∃ k, m.testBit k = true ∧
      st.2 m = st.2 (m - 2 ^ k) ++ [idOf data k] ∧
      st.1 m = ((penOf data st m (getTotalTime data m) k : ℤ) : WithTop ℤ) ∧
      (∀ q, m.testBit q = true →
        penOf data st m (getTotalTime data m) k ≤ penOf data st m (getTotalTime data m) q ∧
        (penOf data st m (getTotalTime data m) q = penOf data st m (getTotalTime data m) k →
          pyListLt (st.2 (m - 2 ^ q)) (st.2 (m - 2 ^ k)) = false)))

/-- Invariant after the outer loop has processed masks `1, …, M`. -/
def StateInv (data : List Task) (M : ℕ) (st : DPState) : Prop :=
  (∀ m, m ≤ M → MaskDone data st m) ∧
  (∀ m, M < m → st.1 m = ⊤ ∧ st.2 m = [])

lemma maskDone_zero (data : List Task) (st : DPState)
    (h1 : st.1 0 = ((0 : ℤ) : WithTop ℤ)) (h2 : st.2 0 = []) :
    MaskDone data st 0 := by
  refine ⟨0, [], h1, by simp [maskBits_zero], by simp [h2], by simp [getPenalty, posJobs], ?_,
    by omega⟩
  intro τ hτ
  rw [maskBits_zero] at hτ
  rw [hτ.eq_nil]
  simp [getPenalty, posJobs]

lemma stateInv_init (data : List Task) : StateInv data 0 initState := by
  constructor
  · intro m hm
    rw [Nat.le_zero] at hm
    subst hm
    exact maskDone_zero data initState (by simp [initState]) rfl
  · intro m hm
    refine ⟨?_, rfl⟩
    simp only [initState]
    rw [if_neg (by omega)]

lemma runMask_at_ne (data : List Task) (st : DPState) (i : ℕ) {m : ℕ} (hne : m ≠ i) :
    (runMask data st i).1 m = st.1 m ∧ (runMask data st i).2 m = st.2 m := by
  rw [runMask]
  exact ⟨by simp [hne], by simp [hne]⟩

/-- A processed mask's characterization is stable under processing a
strictly larger mask (all referenced table entries are at indices `≤ m`). -/
lemma maskDone_preserved (data : List Task) (st : DPState) {i m : ℕ} (hmi : m < i)
    (hD : MaskDone data st m) : MaskDone data (runMask data st i) m := by
  obtain ⟨v, σ, hv, hperm, hmap, hpen, hmin, hwin⟩ := hD
  have e := runMask_at_ne data st i (show m ≠ i by omega)
  have esub : ∀ k, (runMask data st i).1 (m - 2 ^ k) = st.1 (m - 2 ^ k) ∧
      (runMask data st i).2 (m - 2 ^ k) = st.2 (m - 2 ^ k) := by
    intro k
    have hle : m - 2 ^ k ≤ m := Nat.sub_le m (2 ^ k)
    exact runMask_at_ne data st i (by omega)
  refine ⟨v, σ, by rw [e.1, hv], hperm, by rw [e.2, hmap], hpen, hmin, ?_⟩
  intro hm
  obtain ⟨k, hk, hcat, hval, hsel⟩ := hwin hm
  have hpenOf : ∀ q, penOf data (runMask data st i) m (getTotalTime data m) q =
      penOf data st m (getTotalTime data m) q := by
    intro q
    rw [penOf, penOf, (esub q).1]
  refine ⟨k, hk, by rw [e.2, (esub k).2, hcat], by rw [e.1, hpenOf, hval], ?_⟩
  intro q hq
  rw [hpenOf, hpenOf, (esub q).2, (esub k).2]
  exact hsel q hq

lemma runMask_at_self (data : List Task) (st : DPState) (i : ℕ) :
    (runMask data st i).1 i =
      ((List.range (i + 1)).foldl (innerStep data st i (getTotalTime data i))
        (st.1 i, st.2 i, 0)).1 ∧
    (runMask data st i).2 i =
      ((List.range (i + 1)).foldl (innerStep data st i (getTotalTime data i))
        (st.1 i, st.2 i, 0)).2.1 ++
        [(data.getD ((List.range (i + 1)).foldl (innerStep data st i (getTotalTime data i))
          (st.1 i, st.2 i, 0)).2.2 dfltTask).id] := by
  constructor <;> simp [runMask]

/-- Processing mask `i` (all smaller masks done, all masks `≥ i` untouched)
establishes the invariant up to `i`. -/
lemma stateInv_step (data : List Task) {i : ℕ} (h1 : 1 ≤ i) (h2 : i < 2 ^ data.length)
    {st : DPState}
    (hdone : ∀ m, m < i → MaskDone data st m)
    (hout : ∀ m, i ≤ m → st.1 m = ⊤ ∧ st.2 m = []) :
    StateInv data i (runMask data st i) := by
  have hst1 : st.1 i = ⊤ := (hout i le_rfl).1
  have hst2 : st.2 i = [] := (hout i le_rfl).2
  have hks : maskBits data.length i ≠ [] := maskBits_ne_nil h1 h2
  set time := getTotalTime data i with htime
  set r := (List.range (i + 1)).foldl (innerStep data st i time) (st.1 i, st.2 i, 0) with hrdef
  have hGood : Good (penOf data st i time) (ordsOf st i) (maskBits data.length i) r := by
    rw [hrdef, hst1, hst2, foldl_innerStep_eq data st i time (⊤, [], 0) h2]
    exact good_run (penOf data st i time) (ordsOf st i) hks
  obtain ⟨hidxmem, hord, hval, hmin, htie⟩ := hGood
  have hidxBit : i.testBit r.2.2 = true := (mem_maskBits.mp hidxmem).2
  have hidxN : r.2.2 < data.length := (mem_maskBits.mp hidxmem).1
  have hpowpos : ∀ q : ℕ, 0 < 2 ^ q := fun q => pow_pos (two_pos (α := ℕ)) q
  have hprevlt : i - 2 ^ r.2.2 < i := by
    have := hpowpos r.2.2
    omega
  obtain ⟨pv, σp, hpv, hσperm, hσmap, hσpen, hσmin, _⟩ := hdone (i - 2 ^ r.2.2) hprevlt
  have htv : tableVal (st.1 (i - 2 ^ r.2.2)) = pv := by
    rw [hpv]
    rfl
  have hpenidx : penOf data st i time r.2.2 =
      getTaskPenalty (data.getD r.2.2 dfltTask) time + pv := by
    rw [penOf, htv]
  have hat1 : (runMask data st i).1 i = r.1 := (runMask_at_self data st i).1
  have hat2 : (runMask data st i).2 i = r.2.1 ++ [(data.getD r.2.2 dfltTask).id] :=
    (runMask_at_self data st i).2
  have hsub_t : time = getTotalTime data (i - 2 ^ r.2.2) + (data.getD r.2.2 dfltTask).p :=
    getTotalTime_sub data hidxBit hidxN
  -- the new witness sequence and its properties
  have hpermi : (σp ++ [r.2.2]).Perm (maskBits data.length i) := by
    have hp1 : (σp ++ [r.2.2]).Perm (r.2.2 :: σp) := List.perm_append_singleton r.2.2 σp
    have hσe : σp.Perm ((maskBits data.length i).erase r.2.2) := by
      rw [← maskBits_sub_two_pow hidxBit]
      exact hσperm
    have hp3 : (r.2.2 :: (maskBits data.length i).erase r.2.2).Perm
        (maskBits data.length i) := (List.perm_cons_erase hidxmem).symm
    exact (hp1.trans (hσe.cons r.2.2)).trans hp3
  have hmapi : (runMask data st i).2 i = (σp ++ [r.2.2]).map (idOf data) := by
    rw [hat2, hord]
    show st.2 (i - 2 ^ r.2.2) ++ [(data.getD r.2.2 dfltTask).id] = _
    rw [hσmap, List.map_append]
    rfl
  have hpeni : getPenalty (posJobs data (σp ++ [r.2.2])) = penOf data st i time r.2.2 := by
    have hjobs : posJobs data (σp ++ [r.2.2]) =
        posJobs data σp ++ [data.getD r.2.2 dfltTask] := by
      rw [posJobs, posJobs, List.map_append]
      rfl
    rw [hjobs, getPenalty_concat, hσpen, sum_p_of_perm data hσperm, ← hsub_t, hpenidx]
    ring
  have hmini : ∀ τ : List ℕ, τ.Perm (maskBits data.length i) →
      penOf data st i time r.2.2 ≤ getPenalty (posJobs data τ) := by
    intro τ hτ
    have hτne : τ ≠ [] := by
      intro hnil
      subst hnil
      exact hks hτ.symm.eq_nil
    obtain ⟨τ0, last, rfl⟩ : ∃ τ0 last, τ = τ0 ++ [last] :=
      ⟨τ.dropLast, τ.getLast hτne, (List.dropLast_append_getLast hτne).symm⟩
    have hlastks : last ∈ maskBits data.length i := hτ.mem_iff.mp (by simp)
    have hlastBit : i.testBit last = true := (mem_maskBits.mp hlastks).2
    have hlastN : last < data.length := (mem_maskBits.mp hlastks).1
    have hdrop : τ0.Perm (maskBits data.length (i - 2 ^ last)) := by
      rw [maskBits_sub_two_pow hlastBit]
      have hc1 : (last :: τ0).Perm (maskBits data.length i) :=
        (List.perm_append_singleton last τ0).symm.trans hτ
      exact (hc1.trans (List.perm_cons_erase hlastks)).cons_inv
    have hlastlt : i - 2 ^ last < i := by
      have := hpowpos last
      omega
    obtain ⟨pv2, σ2, hpv2, hσ2perm, _, _, hσ2min, _⟩ := hdone (i - 2 ^ last) hlastlt
    have h1le : pv2 ≤ getPenalty (posJobs data τ0) := hσ2min τ0 hdrop
    have htv2 : tableVal (st.1 (i - 2 ^ last)) = pv2 := by
      rw [hpv2]
      rfl
    have hplast : penOf data st i time last =
        getTaskPenalty (data.getD last dfltTask) time + pv2 := by
      rw [penOf, htv2]
    have hminlast := hmin last hlastks
    have hjobs : posJobs data (τ0 ++ [last]) =
        posJobs data τ0 ++ [data.getD last dfltTask] := by
      rw [posJobs, posJobs, List.map_append]
      rfl
    rw [hjobs, getPenalty_concat, sum_p_of_perm data hdrop,
      ← getTotalTime_sub data hlastBit hlastN, ← htime]
    rw [hplast] at hminlast
    omega
  -- penalties of candidates are unchanged by the write at `i`
  have hpen_st' : ∀ q, penOf data (runMask data st i) i time q = penOf data st i time q := by
    intro q
    have hle : i - 2 ^ q ≤ i := Nat.sub_le i (2 ^ q)
    have hqlt : i - 2 ^ q < i := by
      have := hpowpos q
      omega
    rw [penOf, penOf, (runMask_at_ne data st i (show i - 2 ^ q ≠ i by omega)).1]
  have hord_st' : ∀ q, (runMask data st i).2 (i - 2 ^ q) = st.2 (i - 2 ^ q) := by
    intro q
    have hqlt : i - 2 ^ q < i := by
      have := hpowpos q
      omega
    exact (runMask_at_ne data st i (show i - 2 ^ q ≠ i by omega)).2
  have hDonei : MaskDone data (runMask data st i) i := by
    refine ⟨penOf data st i time r.2.2, σp ++ [r.2.2], by rw [hat1, hval], hpermi, hmapi,
      hpeni, hmini, ?_⟩
    intro _
    refine ⟨r.2.2, hidxBit, ?_, ?_, ?_⟩
    · rw [hat2, hord, hord_st' r.2.2]
      rfl
    · rw [← htime, hat1, hval, hpen_st' r.2.2]
    · intro q hq
      have hqks : q ∈ maskBits data.length i :=
        mem_maskBits.mpr ⟨testBit_lt_of_lt_two_pow h2 hq, hq⟩
      rw [← htime, hpen_st' q, hpen_st' r.2.2, hord_st' q, hord_st' r.2.2]
      refine ⟨hmin q hqks, ?_⟩
      intro heq
      have := htie q hqks heq
      rw [hord] at this
      exact this
  constructor
  · intro m hm
    by_cases hmi : m = i
    · subst hmi
      exact hDonei
    · have hlt : m < i := by omega
      exact maskDone_preserved data st hlt (hdone m hlt)
  · intro m hm
    have houtm := hout m (by omega)
    have e := runMask_at_ne data st i (show m ≠ i by omega)
    exact ⟨by rw [e.1, houtm.1], by rw [e.2, houtm.2]⟩

/-- The invariant holds after the whole outer loop. -/
lemma stateInv_all (data : List Task) :
    ∀ M, M ≤ 2 ^ data.length - 1 → StateInv data M (PD_state data M) := by
  intro M
  induction M with
  | zero => intro _; exact stateInv_init data
  | succ M ih =>
    intro hM
    have hpow : 1 ≤ 2 ^ data.length := Nat.one_le_two_pow
    have h2 : M + 1 < 2 ^ data.length := by omega
    have hrange : List.range' 1 (M + 1) = List.range' 1 M ++ [M + 1] := by
      rw [List.range'_concat]
      norm_num [Nat.add_comm]
    obtain ⟨hdone, hout⟩ := ih (by omega)
    simp only [PD_state] at hdone hout ⊢
    rw [hrange, List.foldl_append, List.foldl_cons, List.foldl_nil]
    exact stateInv_step data (by omega) h2 (fun m hm => hdone m (by omega))
      (fun m hm => hout m (by omega))

/-- Every mask below `2^N` is fully characterized in the final tables. -/
lemma pd_tables_done (data : List Task) {m : ℕ} (hm : m < 2 ^ data.length) :
    MaskDone data (PD_tables data) m := by
  have hpow : 1 ≤ 2 ^ data.length := Nat.one_le_two_pow
  exact (stateInv_all data (2 ^ data.length - 1) le_rfl).1 m (by omega)

/-! ### Bridging lemmas for the claim statements -/

lemma maskBits_full (N : ℕ) : maskBits N (2 ^ N - 1) = List.range N := by
  rw [maskBits, List.filter_eq_self]
  intro a ha
  rw [Nat.testBit_two_pow_sub_one]
  simp [List.mem_range.mp ha]

lemma posJobs_range (data : List Task) : posJobs data (List.range data.length) = data := by
  apply List.ext_getElem
  · simp [posJobs]
  · intro n h1 h2
    simp only [posJobs, List.getElem_map, List.getElem_range]
    exact List.getD_eq_getElem data dfltTask h2

/-- A permutation of a mapped list factors through a permutation of the
original list. -/
lemma perm_map_factor {α β : Type*} (f : α → β) {l1 : List β} {l : List α}
    (hp : l1.Perm (l.map f)) : ∃ l0 : List α, l0.Perm l ∧ l1 = l0.map f := by
  generalize hml : l.map f = ml at hp
  induction hp generalizing l with
  | nil =>
    have hnil : l = [] := by
      cases l with
      | nil => rfl
      | cons a l' => simp at hml
    exact ⟨[], by simp [hnil], rfl⟩
  | cons x h ih =>
    cases l with
    | nil => simp at hml
    | cons a l' =>
      rw [List.map_cons] at hml
      injection hml with hx ht
      obtain ⟨σ, hσp, hσe⟩ := ih ht
      exact ⟨a :: σ, hσp.cons a, by rw [List.map_cons, hx, hσe]⟩
  | swap x y l₀ =>
    cases l with
    | nil => simp at hml
    | cons a l1' =>
      cases l1' with
      | nil => simp at hml
      | cons b l' =>
        rw [List.map_cons, List.map_cons] at hml
        injection hml with hx ht
        injection ht with hy ht2
        exact ⟨b :: a :: l', List.Perm.swap a b l',
          by rw [List.map_cons, List.map_cons, hx, hy, ht2]⟩
  | trans h1 h2 ih1 ih2 =>
    obtain ⟨σ2, hσ2p, hσ2e⟩ := ih2 hml
    obtain ⟨σ1, hσ1p, hσ1e⟩ := ih1 hσ2e.symm
    exact ⟨σ1, hσ1p.trans hσ2p, hσ1e⟩

lemma mem_lt_of_perm_maskBits {data : List Task} {m : ℕ} {σ : List ℕ}
    (h : σ.Perm (maskBits data.length m)) : ∀ k ∈ σ, k < data.length := by
  intro k hk
  exact (mem_maskBits.mp (h.mem_iff.mp hk)).1

lemma ordToJobs_map_idOf (data : List Task) {σ : List ℕ}
    (hσ : ∀ k ∈ σ, k < data.length)
    (hid : ∀ k, k < data.length → idOf data k = (k : ℤ)) :
    ordToJobs data (σ.map (idOf data)) = posJobs data σ := by
  rw [ordToJobs, posJobs, List.map_map]
  apply List.map_congr_left
  intro k hk
  simp only [Function.comp_apply]
  rw [hid k (hσ k hk), Int.toNat_natCast]

lemma popCount_eq_length_maskBits {N m : ℕ} (hm : m < 2 ^ N) :
    popCount m = (maskBits N m).length := by
  rw [popCount, maskBits]
  have hb1 : ∀ k, m.testBit k = true → k < m + 1 := fun k hk =>
    Nat.lt_succ_of_lt (testBit_lt_self hk)
  have hb2 : ∀ k, m.testBit k = true → k < N := fun k hk =>
    testBit_lt_of_lt_two_pow hm hk
  have hbm : ∀ k, m.testBit k = true → k < m := fun k hk => testBit_lt_self hk
  have e0 := filter_range_testBit_congr (i := m) (a := m) (b := m ⊔ (m + 1) ⊔ N) hbm
    (le_trans le_sup_left le_sup_left)
  have e2 := filter_range_testBit_congr (i := m) (a := N) (b := m ⊔ (m + 1) ⊔ N) hb2
    le_sup_right
  rw [← e0, ← e2]

/-! ### Variant without the `isinf` guard -/

/-- The inner loop body as it would read with the `math.isinf(prev)` check
removed: `penalty += prev` is performed unconditionally, in `WithTop ℤ`
(so adding an infinite `prev` yields an infinite candidate penalty). -/
def innerStepNI (data : List Task) (st : DPState) (i : ℕ) (time : ℤ)
    (acc : WithTop ℤ × List ℤ × ℕ) (k : ℕ) : WithTop ℤ × List ℤ × ℕ :=
  if i &&& (1 <<< k) ≠ 0 then
    let pen : WithTop ℤ :=
      ((getTaskPenalty (data.getD k dfltTask) time : ℤ) : WithTop ℤ) + st.1 (i - (1 <<< k))
    if pen < acc.1 then (pen, st.2 (i - (1 <<< k)), k)
    else if acc.1 = pen ∧ pyListLt (st.2 (i - (1 <<< k))) acc.2.1 then
      (acc.1, st.2 (i - (1 <<< k)), k)
    else acc
  else acc

/-- `runMask` with the guard-free inner loop. -/
def runMaskNI (data : List Task) (st : DPState) (i : ℕ) : DPState :=
  let time := getTotalTime data i
  let r := (List.range (i + 1)).foldl (innerStepNI data st i time) (st.1 i, st.2 i, 0)
  (fun m => if m = i then r.1 else st.1 m,
   fun m => if m = i then r.2.1 ++ [(data.getD r.2.2 dfltTask).id] else st.2 m)

/-- The solver state with the guard-free inner loop. -/
def PD_stateNI (data : List Task) (M : ℕ) : DPState :=
  (List.range' 1 M).foldl (runMaskNI data) initState

/-- Final tables of the guard-free solver. -/
def PD_tablesNI (data : List Task) : DPState :=
  PD_stateNI data (2 ^ data.length - 1)

lemma innerStepNI_eq_innerStep (data : List Task) (st : DPState) (i : ℕ) (time : ℤ)
    (hfin : ∀ k, i.testBit k = true → st.1 (i - 2 ^ k) ≠ ⊤) :
    innerStepNI data st i time = innerStep data st i time := by
  funext acc k
  rw [innerStep_eq]
  by_cases hk : i.testBit k = true
  · rw [if_pos hk]
    have hg : i &&& 1 <<< k ≠ 0 := (and_shift_ne_iff i k).mpr hk
    cases hv : st.1 (i - 2 ^ k) with
    | top => exact absurd hv (hfin k hk)
    | coe v =>
      have hg2 : i &&& 2 ^ k ≠ 0 := by
        rw [← Nat.one_shiftLeft]
        exact hg
      simp only [innerStepNI, if_pos hg, Nat.one_shiftLeft, hv, chooseStep, penOf, ordsOf,
        tableVal]
      rw [← WithTop.coe_add]
      rw [if_pos hg2]
  · rw [if_neg hk]
    have hg : ¬i &&& 1 <<< k ≠ 0 := fun hc => hk ((and_shift_ne_iff i k).mp hc)
    simp only [innerStepNI, if_neg hg]

lemma runMaskNI_eq_runMask (data : List Task) (st : DPState) (i : ℕ)
    (hfin : ∀ k, i.testBit k = true → st.1 (i - 2 ^ k) ≠ ⊤) :
    runMaskNI data st i = runMask data st i := by
  rw [runMaskNI, runMask, innerStepNI_eq_innerStep data st i (getTotalTime data i) hfin]

lemma pd_stateNI_eq (data : List Task) :
    ∀ M, M ≤ 2 ^ data.length - 1 → PD_stateNI data M = PD_state data M := by
  intro M
  induction M with
  | zero => intro _; rfl
  | succ M ih =>
    intro hM
    have hrange : List.range' 1 (M + 1) = List.range' 1 M ++ [M + 1] := by
      rw [List.range'_concat]
      norm_num [Nat.add_comm]
    have hih := ih (by omega)
    have hdone := (stateInv_all data M (by omega)).1
    rw [PD_stateNI, PD_state, hrange, List.foldl_append, List.foldl_append,
      List.foldl_cons, List.foldl_cons, List.foldl_nil, List.foldl_nil]
    rw [show (List.range' 1 M).foldl (runMaskNI data) initState = PD_stateNI data M from rfl,
      show (List.range' 1 M).foldl (runMask data) initState = PD_state data M from rfl, hih]
    apply runMaskNI_eq_runMask
    intro k hk
    have h2pow : 0 < 2 ^ k := pow_pos (two_pos (α := ℕ)) k
    have hle : 2 ^ k ≤ M + 1 := two_pow_le_of_testBit hk
    obtain ⟨v, σ, hv, _⟩ := hdone (M + 1 - 2 ^ k) (by omega)
    rw [hv]
    exact WithTop.coe_ne_top

lemma pd_tablesNI_eq (data : List Task) : PD_tablesNI data = PD_tables data :=
  pd_stateNI_eq data (2 ^ data.length - 1) le_rfl

/-! ### Variant implementing the tie-break as the spec words it -/

/-- The inner loop body with the tie-break comparison REVERSED relative to
the source: on a penalty tie the candidate is taken when its predecessor
order compares lexicographically GREATER than the currently kept one
(this is what the spec sentence describes). -/
def innerStepSpecTie (data : List Task) (st : DPState) (i : ℕ) (time : ℤ)
    (acc : WithTop ℤ × List ℤ × ℕ) (k : ℕ) : WithTop ℤ × List ℤ × ℕ :=
  if i &&& (1 <<< k) ≠ 0 then
    let prev := st.1 (i - (1 <<< k))
    let pen : ℤ := match prev with
      | ⊤ => getTaskPenalty (data.getD k dfltTask) time
      | (v : ℤ) => getTaskPenalty (data.getD k dfltTask) time + v
    if (pen : WithTop ℤ) < acc.1 then ((pen : WithTop ℤ), st.2 (i - (1 <<< k)), k)
    else if acc.1 = (pen : WithTop ℤ) ∧ pyListLt acc.2.1 (st.2 (i - (1 <<< k))) then
      (acc.1, st.2 (i - (1 <<< k)), k)
    else acc
  else acc

/-- `runMask` with the spec-worded tie-break. -/
def runMaskSpecTie (data : List Task) (st : DPState) (i : ℕ) : DPState :=
  let time := getTotalTime data i
  let r := (List.range (i + 1)).foldl (innerStepSpecTie data st i time) (st.1 i, st.2 i, 0)
  (fun m => if m = i then r.1 else st.1 m,
   fun m => if m = i then r.2.1 ++ [(data.getD r.2.2 dfltTask).id] else st.2 m)

/-- The solver with the spec-worded tie-break. -/
def PD_AlgorithmSpecTie (data : List Task) : List ℤ :=
  ((List.range' 1 (2 ^ data.length - 1)).foldl (runMaskSpecTie data) initState).2
    (2 ^ data.length - 1)

/-! ### Fixed-width (`np.int64`) arithmetic model -/

/-- Two's-complement wrap-around of a signed 64-bit integer (`np.int64`). -/
def wrap64 (x : ℤ) : ℤ := (x + 2 ^ 63) % 2 ^ 64 - 2 ^ 63

/-- `getTaskPenalty` as executed on jobs built by `readData`: the task
fields are `np.int64` values, so the subtraction and the multiplication
each wrap modulo `2^64` instead of being computed exactly. -/
def getTaskPenalty64 (task : Task) (t : ℤ) : ℤ :=
  if task.d < t then wrap64 (task.w * wrap64 (t - task.d)) else 0

/-! ### Concrete fixtures -/

/-- The spec's §8 concrete scenario:
`Job0(p=4,w=1,d=4), Job1(p=2,w=2,d=1), Job2(p=3,w=1,d=6)`. -/
def dataDemo : List Task := [⟨0, 4, 1, 4⟩, ⟨1, 2, 2, 1⟩, ⟨2, 3, 1, 6⟩]

/-- Two jobs with identical `(p, w, d)` and different ids: every
candidate comparison at the full mask is an exact penalty tie. -/
def dataTie : List Task := [⟨0, 1, 1, 0⟩, ⟨1, 1, 1, 0⟩]

/-! ### Claim theorems -/

/-- Claim C1: for every job set of `N ≥ 0` jobs with non-negative integer
processing times, weights and deadlines (job ids being the 0-based input
positions, as the data model fixes), the order returned by `PD_Algorithm`
is exactly optimal — the total penalty of the returned order under
`getPenalty` equals the minimum total weighted tardiness over all `N!`
permutations of the job list. -/
theorem C1_solver_optimal (data : List Task)
    (hid : ∀ k, k < data.length → idOf data k = (k : ℤ))
    (hpos : ∀ t ∈ data, 0 ≤ t.p ∧ 0 ≤ t.w ∧ 0 ≤ t.d) :
    ((data.permutations).map getPenalty).minimum =
      ((getPenalty (ordToJobs data (PD_Algorithm data)) : ℤ) : WithTop ℤ) := by
  have hfull : 2 ^ data.length - 1 < 2 ^ data.length := by
    have := Nat.one_le_two_pow (n := data.length)
    omega
  obtain ⟨v, σ, hv, hperm, hmap, hpen, hmin, _⟩ := pd_tables_done data hfull
  have hmB : maskBits data.length (2 ^ data.length - 1) = List.range data.length :=
    maskBits_full data.length
  have hσlt : ∀ k ∈ σ, k < data.length := mem_lt_of_perm_maskBits hperm
  have hσr : σ.Perm (List.range data.length) := by
    rw [← hmB]
    exact hperm
  have hjperm : (posJobs data σ).Perm data := by
    have := hσr.map (fun k => data.getD k dfltTask)
    rw [show (List.range data.length).map (fun k => data.getD k dfltTask) =
      posJobs data (List.range data.length) from rfl, posJobs_range] at this
    exact this
  have hordj : ordToJobs data (PD_Algorithm data) = posJobs data σ := by
    rw [PD_Algorithm, hmap]
    exact ordToJobs_map_idOf data hσlt hid
  rw [hordj, hpen, List.minimum_eq_coe_iff]
  constructor
  · rw [List.mem_map]
    exact ⟨posJobs data σ, List.mem_permutations.mpr hjperm, hpen⟩
  · intro b hb
    rw [List.mem_map] at hb
    obtain ⟨π, hπmem, rfl⟩ := hb
    rw [List.mem_permutations] at hπmem
    have hπ2 : π.Perm ((List.range data.length).map (fun k => data.getD k dfltTask)) := by
      rw [show (List.range data.length).map (fun k => data.getD k dfltTask) =
        posJobs data (List.range data.length) from rfl, posJobs_range]
      exact hπmem
    obtain ⟨τ, hτp, rfl⟩ := perm_map_factor _ hπ2
    exact hmin τ (by rw [hmB]; exact hτp)

/-- Witness for C1 on the spec's §8 three-job scenario. -/
theorem C1_witness :
    ((dataDemo.permutations).map getPenalty).minimum =
      ((getPenalty (ordToJobs dataDemo (PD_Algorithm dataDemo)) : ℤ) : WithTop ℤ) :=
  C1_solver_optimal dataDemo (by decide) (by decide)

/-- Claim C2, as stated, is FALSE: on the two identical jobs of `dataTie`
(exact penalty tie at the full mask, predecessor orders `[1]` kept vs
candidate `[0]`), the source keeps the candidate with the lexicographically
SMALLER predecessor order and returns `[0, 1]`, whereas a solver that
prefers the lexicographically GREATER predecessor order — what the claim
describes — returns `[1, 0]`. -/
theorem C2_counterexample :
    PD_Algorithm dataTie = [0, 1] ∧
    PD_AlgorithmSpecTie dataTie = [1, 0] ∧
    penOf dataTie (PD_tables dataTie) 3 (getTotalTime dataTie 3) 0 =
      penOf dataTie (PD_tables dataTie) 3 (getTotalTime dataTie 3) 1 ∧
    PD_Algorithm dataTie ≠ PD_AlgorithmSpecTie dataTie := by decide

/-- Claim C2 (amended): in the subset DP solver, for every mask the
selection keeps a candidate last job `k` of strictly smallest candidate
penalty, and on an exact tie in candidate penalty the kept candidate's
predecessor order `witness[prev_mask]` is the lexicographically LEAST
(element-by-element by job id, shorter-is-less) among the tied candidates'
predecessor orders — the comparison being applied to the predecessor
orders before appending job `k`. -/
theorem C2_tie_break (data : List Task) {m : ℕ} (h1 : 0 < m) (h2 : m < 2 ^ data.length) :
    ∃ k, m.testBit k = true ∧
      (PD_tables data).2 m = (PD_tables data).2 (m - 2 ^ k) ++ [idOf data k] ∧
      (PD_tables data).1 m =
        ((penOf data (PD_tables data) m (getTotalTime data m) k : ℤ) : WithTop ℤ) ∧
      ∀ q, m.testBit q = true →
        penOf data (PD_tables data) m (getTotalTime data m) k ≤
          penOf data (PD_tables data) m (getTotalTime data m) q ∧
        (penOf data (PD_tables data) m (getTotalTime data m) q =
            penOf data (PD_tables data) m (getTotalTime data m) k →
          pyListLt ((PD_tables data).2 (m - 2 ^ q)) ((PD_tables data).2 (m - 2 ^ k)) =
            false) := by
  obtain ⟨v, σ, _, _, _, _, _, hwin⟩ := pd_tables_done data h2
  exact hwin h1

/-- Witness for the amended C2 at the tie instance, full mask. -/
theorem C2_tie_break_witness :
    ∃ k, (3 : ℕ).testBit k = true ∧
      (PD_tables dataTie).2 3 = (PD_tables dataTie).2 (3 - 2 ^ k) ++ [idOf dataTie k] ∧
      (PD_tables dataTie).1 3 =
        ((penOf dataTie (PD_tables dataTie) 3 (getTotalTime dataTie 3) k : ℤ) : WithTop ℤ) ∧
      ∀ q, (3 : ℕ).testBit q = true →
        penOf dataTie (PD_tables dataTie) 3 (getTotalTime dataTie 3) k ≤
          penOf dataTie (PD_tables dataTie) 3 (getTotalTime dataTie 3) q ∧
        (penOf dataTie (PD_tables dataTie) 3 (getTotalTime dataTie 3) q =
            penOf dataTie (PD_tables dataTie) 3 (getTotalTime dataTie 3) k →
          pyListLt ((PD_tables dataTie).2 (3 - 2 ^ q)) ((PD_tables dataTie).2 (3 - 2 ^ k)) =
            false) :=
  C2_tie_break dataTie (by decide) (by decide)

/-- Claim C3: for every mask `m < 2^N`, the final witness entry
`table_order[m]` is a permutation of the ids of the jobs whose bits are
set in `m` and has exactly `popcount m` entries; `witness[0] = []`; and
the order returned for the full mask is a permutation of the ids of all
`N` input jobs — with no duplicates when the ids are the 0-based input
positions. -/
theorem C3_witness_invariant (data : List Task) {m : ℕ} (hm : m < 2 ^ data.length) :
    ((PD_tables data).2 m).Perm ((maskBits data.length m).map (idOf data)) ∧
    ((PD_tables data).2 m).length = popCount m ∧
    (PD_tables data).2 0 = [] ∧
    (PD_Algorithm data).Perm ((List.range data.length).map (idOf data)) ∧
    ((∀ k, k < data.length → idOf data k = (k : ℤ)) → (PD_Algorithm data).Nodup) := by
  obtain ⟨v, σ, hv, hperm, hmap, _, _, _⟩ := pd_tables_done data hm
  have h0 : (0 : ℕ) < 2 ^ data.length := pow_pos (two_pos (α := ℕ)) data.length
  obtain ⟨v0, σ0, _, hperm0, hmap0, _, _, _⟩ := pd_tables_done data h0
  have hσ0 : σ0 = [] := by
    rw [maskBits_zero] at hperm0
    exact hperm0.eq_nil
  have hfull : 2 ^ data.length - 1 < 2 ^ data.length := by omega
  obtain ⟨vf, σf, _, hpermf, hmapf, _, _, _⟩ := pd_tables_done data hfull
  have hmB : maskBits data.length (2 ^ data.length - 1) = List.range data.length :=
    maskBits_full data.length
  have hfullperm : (PD_Algorithm data).Perm ((List.range data.length).map (idOf data)) := by
    rw [PD_Algorithm, hmapf]
    refine List.Perm.map (idOf data) ?_
    rw [← hmB]
    exact hpermf
  refine ⟨?_, ?_, ?_, hfullperm, ?_⟩
  · rw [hmap]
    exact hperm.map (idOf data)
  · rw [hmap, List.length_map, popCount_eq_length_maskBits hm]
    exact hperm.length_eq
  · rw [hmap0, hσ0]
    rfl
  · intro hid
    have hcast : (List.range data.length).map (idOf data) =
        (List.range data.length).map (fun k : ℕ => (k : ℤ)) :=
      List.map_congr_left (fun a ha => hid a (List.mem_range.mp ha))
    have hinj : Function.Injective (fun k : ℕ => (k : ℤ)) := fun a b hab => by
      simpa using hab
    have hnd : ((List.range data.length).map (fun k : ℕ => (k : ℤ))).Nodup :=
      List.Nodup.map hinj (List.nodup_range data.length)
    refine hfullperm.symm.nodup ?_
    rw [hcast]
    exact hnd

/-- Witness for C3 at the §8 scenario, mask `5 = {job0, job2}`. -/
theorem C3_witness :
    ((PD_tables dataDemo).2 5).Perm ((maskBits dataDemo.length 5).map (idOf dataDemo)) ∧
    ((PD_tables dataDemo).2 5).length = popCount 5 ∧
    (PD_tables dataDemo).2 0 = [] ∧
    (PD_Algorithm dataDemo).Perm ((List.range dataDemo.length).map (idOf dataDemo)) ∧
    ((∀ k, k < dataDemo.length → idOf dataDemo k = (k : ℤ)) →
      (PD_Algorithm dataDemo).Nodup) :=
  C3_witness_invariant dataDemo (by decide)

/-- Claim C4: for every mask `1 ≤ m < 2^N`, the final `table[m]` is a
finite value equal to the minimum, over all orderings of the subset of
jobs denoted by `m`, of the total penalty of running that subset
back-to-back from time 0; and the recurrence is internally consistent:
`table[m] = table[m with bit k cleared] + job_penalty(jobs[k],
subset_total_time(jobs, m))` for a winning last job `k`. -/
theorem C4_table_optimal (data : List Task) {m : ℕ} (h1 : 1 ≤ m) (h2 : m < 2 ^ data.length) :
    ∃ v : ℤ, (PD_tables data).1 m = ((v : ℤ) : WithTop ℤ) ∧
      (∃ π : List Task, π.Perm (posJobs data (maskBits data.length m)) ∧ getPenalty π = v) ∧
      (∀ π : List Task, π.Perm (posJobs data (maskBits data.length m)) → v ≤ getPenalty π) ∧
      ∃ k, m.testBit k = true ∧ ∃ pv : ℤ,
        (PD_tables data).1 (m - 2 ^ k) = ((pv : ℤ) : WithTop ℤ) ∧
        v = pv + getTaskPenalty (data.getD k dfltTask) (getTotalTime data m) := by
  obtain ⟨v, σ, hv, hperm, hmap, hpen, hmin, hwin⟩ := pd_tables_done data h2
  refine ⟨v, hv, ⟨posJobs data σ, hperm.map _, hpen⟩, ?_, ?_⟩
  · intro π hπ
    obtain ⟨τ, hτp, rfl⟩ := perm_map_factor _ hπ
    exact hmin τ hτp
  · obtain ⟨k, hk, _, hval, _⟩ := hwin (by omega)
    have hps : 0 < 2 ^ k := pow_pos (two_pos (α := ℕ)) k
    have hle : 2 ^ k ≤ m := two_pow_le_of_testBit hk
    have hsub : m - 2 ^ k < 2 ^ data.length := by omega
    obtain ⟨pv, σ2, hpv, _⟩ := pd_tables_done data hsub
    refine ⟨k, hk, pv, hpv, ?_⟩
    have hvv : ((v : ℤ) : WithTop ℤ) =
        ((penOf data (PD_tables data) m (getTotalTime data m) k : ℤ) : WithTop ℤ) :=
      hv.symm.trans hval
    have hveq : v = penOf data (PD_tables data) m (getTotalTime data m) k := by
      exact_mod_cast hvv
    rw [hveq, penOf, hpv]
    simp only [tableVal]
    ring

/-- Witness for C4 at the §8 scenario, mask `3 = {job0, job1}`. -/
theorem C4_witness :
    ∃ v : ℤ, (PD_tables dataDemo).1 3 = ((v : ℤ) : WithTop ℤ) ∧
      (∃ π : List Task, π.Perm (posJobs dataDemo (maskBits dataDemo.length 3)) ∧
        getPenalty π = v) ∧
      (∀ π : List Task, π.Perm (posJobs dataDemo (maskBits dataDemo.length 3)) →
        v ≤ getPenalty π) ∧
      ∃ k, (3 : ℕ).testBit k = true ∧ ∃ pv : ℤ,
        (PD_tables dataDemo).1 (3 - 2 ^ k) = ((pv : ℤ) : WithTop ℤ) ∧
        v = pv + getTaskPenalty (dataDemo.getD k dfltTask) (getTotalTime dataDemo 3) :=
  C4_table_optimal dataDemo (by decide) (by decide)

/-- Claim C5: the solver is deterministic — it is a pure function of the
job set, so two invocations on equal job sets return identical sequences
and identical evaluated total penalties (tie-break outcomes included). -/
theorem C5_deterministic (d1 d2 : List Task) (h : d1 = d2) :
    PD_Algorithm d1 = PD_Algorithm d2 ∧
    getPenalty (ordToJobs d1 (PD_Algorithm d1)) =
      getPenalty (ordToJobs d2 (PD_Algorithm d2)) := by
  subst h
  exact ⟨rfl, rfl⟩

/-- Witness for C5 on the §8 scenario. -/
theorem C5_witness :
    PD_Algorithm dataDemo = PD_Algorithm dataDemo ∧
    getPenalty (ordToJobs dataDemo (PD_Algorithm dataDemo)) =
      getPenalty (ordToJobs dataDemo (PD_Algorithm dataDemo)) :=
  C5_deterministic dataDemo dataDemo rfl

/-- Claim C6: base cases — for `N = 0` the solver returns the empty order
whose evaluated penalty is `0`; for `N = 1` it returns `[job.id]` and the
total penalty of that one-job schedule is
`job_penalty(job, job.processing_time)`. -/
theorem C6_base_cases :
    (PD_Algorithm ([] : List Task) = [] ∧
      getPenalty (ordToJobs [] (PD_Algorithm [])) = 0) ∧
    ∀ job : Task, PD_Algorithm [job] = [job.id] ∧
      getPenalty [job] = getTaskPenalty job job.p := by
  constructor
  · exact ⟨rfl, rfl⟩
  · intro job
    constructor
    · have h1 : (1 : ℕ) < 2 ^ ([job] : List Task).length := by norm_num
      obtain ⟨v, σ, hv, hperm, hmap, _, _, _⟩ := pd_tables_done [job] h1
      have hmB : maskBits ([job] : List Task).length 1 = [0] := rfl
      rw [hmB] at hperm
      have hσ : σ = [0] := List.perm_singleton.mp hperm
      subst hσ
      have hPD : PD_Algorithm [job] = (PD_tables [job]).2 1 := rfl
      rw [hPD, hmap]
      rfl
    · rw [getPenalty_eq_penaltyFrom]
      simp [penaltyFrom]

/-- Witness for C6 at a concrete one-job instance. -/
theorem C6_witness :
    PD_Algorithm [(⟨7, 5, 3, 2⟩ : Task)] = [(7 : ℤ)] ∧
    getPenalty [(⟨7, 5, 3, 2⟩ : Task)] =
      getTaskPenalty (⟨7, 5, 3, 2⟩ : Task) (⟨7, 5, 3, 2⟩ : Task).p :=
  C6_base_cases.2 ⟨7, 5, 3, 2⟩

/-- Claim C7: `getTaskPenalty` returns `weight * (t - deadline)` when
`t > deadline` and `0` otherwise, and is never negative for a well-formed
job (`weight ≥ 0`, `deadline ≥ 0`). -/
theorem C7_task_penalty (task : Task) (t : ℤ) (hw : 0 ≤ task.w) (hd : 0 ≤ task.d) :
    getTaskPenalty task t = (if task.d < t then task.w * (t - task.d) else 0) ∧
    0 ≤ getTaskPenalty task t := by
  refine ⟨rfl, ?_⟩
  rw [getTaskPenalty]
  split_ifs with h
  · exact mul_nonneg hw (by omega)
  · exact le_refl 0

/-- Witness for C7 at a concrete late job. -/
theorem C7_witness :
    getTaskPenalty (⟨0, 4, 2, 3⟩ : Task) 10 =
      (if (⟨0, 4, 2, 3⟩ : Task).d < 10 then
        (⟨0, 4, 2, 3⟩ : Task).w * (10 - (⟨0, 4, 2, 3⟩ : Task).d) else 0) ∧
    0 ≤ getTaskPenalty (⟨0, 4, 2, 3⟩ : Task) 10 :=
  C7_task_penalty ⟨0, 4, 2, 3⟩ 10 (by decide) (by decide)

/-- Claim C8: `getPenalty` returns the sum, over the jobs run back-to-back
from time 0, of `getTaskPenalty` at each job's completion time (the
cumulative processing time up to and including that job), and returns `0`
on the empty sequence. -/
theorem C8_sequence_penalty (data : List Task) :
    getPenalty data = (∑ j ∈ Finset.range data.length,
      getTaskPenalty (data.getD j dfltTask) (((data.take (j + 1)).map Task.p).sum)) ∧
    getPenalty ([] : List Task) = 0 := by
  refine ⟨?_, rfl⟩
  rw [getPenalty_eq_penaltyFrom, penaltyFrom_eq_sum]
  apply Finset.sum_congr rfl
  intro j _
  rw [zero_add]

/-- Witness for C8 on the §8 scenario. -/
theorem C8_witness :
    getPenalty dataDemo = (∑ j ∈ Finset.range dataDemo.length,
      getTaskPenalty (dataDemo.getD j dfltTask) (((dataDemo.take (j + 1)).map Task.p).sum)) ∧
    getPenalty ([] : List Task) = 0 :=
  C8_sequence_penalty dataDemo

/-- Claim C9: every already-processed table entry is finite (`table[0] = 0`
and every smaller nonzero mask received a finite penalty earlier), so the
`math.isinf(prev)` fallback never changes anything: the solver with the
guard removed computes the very same tables, and every mask ends with a
finite (candidate-selected) value. -/
theorem C9_no_infinite_predecessor (data : List Task) :
    (∀ m, m < 2 ^ data.length → (PD_tables data).1 m ≠ ⊤) ∧
    (PD_tables data).1 0 = ((0 : ℤ) : WithTop ℤ) ∧
    PD_tablesNI data = PD_tables data := by
  refine ⟨?_, ?_, pd_tablesNI_eq data⟩
  · intro m hm
    obtain ⟨v, σ, hv, _⟩ := pd_tables_done data hm
    rw [hv]
    exact WithTop.coe_ne_top
  · have h0 : (0 : ℕ) < 2 ^ data.length := pow_pos (two_pos (α := ℕ)) data.length
    obtain ⟨v, σ, hv, hperm, _, hpen, _, _⟩ := pd_tables_done data h0
    have hσ : σ = [] := by
      rw [maskBits_zero] at hperm
      exact hperm.eq_nil
    subst hσ
    rw [hv]
    have : v = 0 := by
      rw [← hpen]
      rfl
    rw [this]

/-- Witness for C9 at the §8 scenario, mask 3. -/
theorem C9_witness : (PD_tables dataDemo).1 3 ≠ ⊤ :=
  (C9_no_infinite_predecessor dataDemo).1 3 (by decide)

/-- Claim C10 concerns `np.int64` arithmetic: this theorem evaluates the
embedded fixed-width penalty computation at the failing input — a job
with `w = 2^62` and deadline `0` at completion time `4` — where the exact
penalty is `2^64` but the `int64` computation silently wraps to `0`. -/
theorem C10_int64_wrap :
    getTaskPenalty64 ⟨0, 0, 2 ^ 62, 0⟩ 4 = 0 ∧
    getTaskPenalty ⟨0, 0, 2 ^ 62, 0⟩ 4 = 2 ^ 64 ∧
    getTaskPenalty64 ⟨0, 0, 2 ^ 62, 0⟩ 4 ≠ getTaskPenalty ⟨0, 0, 2 ^ 62, 0⟩ 4 := by
  decide

end PWD

